import Mathlib

/-!
Shallow embedding of the node orchestrator (libethereum/Client.cpp):
VersionChecker, BasicGasPricer, the reorg transaction-pool phase of the
work loop, pending-log filter notification, Client::call, the watch
garbage collection tick, and Client::hashrate.  Machine words are Nat;
unsigned 64-bit accumulation is taken modulo 2 ^ 64 where the source uses
uint64_t arithmetic that could wrap.
-/

namespace EthClient

/-! ## VersionChecker -/

/-- The compiled-in constants c_protocolVersion, c_minorProtocolVersion and
c_databaseVersion the checker compares the status record against. -/
structure VersionConstants where
  protocolVersion : Nat
  minorProtocolVersion : Nat
  databaseVersion : Nat
deriving DecidableEq, Repr

/-- WithExisting: the action the version check selects for the on-disk store. -/
inductive WithExisting where
  | Trust
  | Verify
  | Kill
deriving DecidableEq, Repr

/-- Reading status[0], status[1], status[2] from the RLP list in the status
file.  The file is `none` when absent; a record with fewer than three fields
makes the indexing throw, which the constructor's catch turns into Kill, so
parsing yields `none` there.  A record with more than three fields still
indexes fine, so only its first three fields are read. -/
def parseStatus : Option (List Nat) → Option (Nat × Nat × Nat)
  | none => none
  | some (p :: m :: d :: _) => some (p, m, d)
  | some _ => none

/-- VersionChecker::VersionChecker: Kill when protocol or database version
differ (or the record does not parse), Verify when only the minor protocol
version differs, Trust otherwise. -/
def versionCheckerAction (k : VersionConstants) (file : Option (List Nat)) :
    WithExisting :=
  match parseStatus file with
  | none => WithExisting.Kill
  | some (p, m, d) =>
    if p ≠ k.protocolVersion ∨ d ≠ k.databaseVersion then WithExisting.Kill
    else if m ≠ k.minorProtocolVersion then WithExisting.Verify
    else WithExisting.Trust

/-- VersionChecker::setOk: when the action is not Trust, the status file is
rewritten with exactly the three compiled-in constants; under Trust nothing
is written. -/
def setOk (k : VersionConstants) (action : WithExisting)
    (file : Option (List Nat)) : Option (List Nat) :=
  if action = WithExisting.Trust then file
  else some [k.protocolVersion, k.minorProtocolVersion, k.databaseVersion]

/-- The status file after startup: the constructor computes the action from
the file's contents and setOk runs with that action. -/
def startupStatusFile (k : VersionConstants) (file : Option (List Nat)) :
    Option (List Nat) :=
  setOk k (versionCheckerAction k file) file

lemma action_trust_iff (k : VersionConstants) (file : Option (List Nat)) :
    versionCheckerAction k file = WithExisting.Trust ↔
      parseStatus file =
        some (k.protocolVersion, k.minorProtocolVersion, k.databaseVersion) := by
  unfold versionCheckerAction
  cases hp : parseStatus file with
  | none => simp
  | some t =>
    obtain ⟨p, m, d⟩ := t
    by_cases h1 : p = k.protocolVersion
    · by_cases h2 : d = k.databaseVersion
      · by_cases h3 : m = k.minorProtocolVersion
        · subst h1; subst h2; subst h3; simp
        · subst h1; subst h2; simp [h3]
      · simp [h1, h2]
    · simp [h1]

lemma action_verify_iff (k : VersionConstants) (file : Option (List Nat)) :
    versionCheckerAction k file = WithExisting.Verify ↔
      ∃ m, m ≠ k.minorProtocolVersion ∧
        parseStatus file = some (k.protocolVersion, m, k.databaseVersion) := by
  unfold versionCheckerAction
  cases hp : parseStatus file with
  | none => simp
  | some t =>
    obtain ⟨p, m, d⟩ := t
    by_cases h1 : p = k.protocolVersion
    · by_cases h2 : d = k.databaseVersion
      · by_cases h3 : m = k.minorProtocolVersion
        · subst h1; subst h2; subst h3; simp
        · subst h1; subst h2; simp [h3]
      · simp [h1, h2]
    · simp [h1]

lemma action_kill_iff (k : VersionConstants) (file : Option (List Nat)) :
    versionCheckerAction k file = WithExisting.Kill ↔
      parseStatus file = none ∨
        ∃ p m d, parseStatus file = some (p, m, d) ∧
          (p ≠ k.protocolVersion ∨ d ≠ k.databaseVersion) := by
  unfold versionCheckerAction
  cases hp : parseStatus file with
  | none => simp
  | some t =>
    obtain ⟨p, m, d⟩ := t
    by_cases h1 : p = k.protocolVersion
    · by_cases h2 : d = k.databaseVersion
      · by_cases h3 : m = k.minorProtocolVersion
        · subst h1; subst h2; subst h3; simp
        · subst h1; subst h2; simp [h3]
      · simp [h1, h2]
        exact ⟨k.protocolVersion, m, d, ⟨rfl, rfl, rfl⟩, Or.inr h2⟩
    · simp [h1]
      exact ⟨p, m, d, ⟨rfl, rfl, rfl⟩, Or.inl h1⟩

/-! ## BasicGasPricer -/

/-- dist[gasPrice] += gasUsed on the key-ordered map std::map holds. -/
def distInsert : List (Nat × Nat) → Nat → Nat → List (Nat × Nat)
  | [], price, used => [(price, used)]
  | (p, u) :: rest, price, used =>
    if price < p then (price, used) :: (p, u) :: rest
    else if price = p then (p, u + used) :: rest
    else (p, u) :: distInsert rest price used

/-- The (gasPrice ↦ accumulated gasUsed) distribution and the running total
BasicGasPricer::update builds from the transactions of the sampled window
(each transaction given as its (gasPrice, gasUsed) pair).  The source's
`unsigned` accumulators are modelled as Nat: the window's gas fits well
below 2 ^ 32 in any state the claim quantifies over. -/
def gasDist (txs : List (Nat × Nat)) : List (Nat × Nat) × Nat :=
  txs.foldl (fun acc t => (distInsert acc.1 t.1 t.2, acc.2 + t.2)) ([], 0)

/-- The inner loop of the octile pass: while t ≤ total·q/8 < t + used it
writes m_octiles[q] := price and increments q.  The fuel bounds the writes;
the source's loop stops before q leaves 0..8 whenever used ≤ total, which
holds for a distribution paired with its own total, so fuel 16 is never
exhausted on inputs the source reaches. -/
def octAdvance (total t price used : Nat) :
    Nat → Nat → List Nat → Nat × List Nat
  | 0, q, oct => (q, oct)
  | fuel + 1, q, oct =>
    if t ≤ total * q / 8 ∧ t + used > total * q / 8 then
      octAdvance total t price used fuel (q + 1) (oct.set q price)
    else (q, oct)

/-- The outer loop over the ordered distribution.  Note: exactly as in the
source, the accumulated weight t is passed on UNCHANGED from entry to entry
(the source never executes t += i.second), and the loop breaks once q > 7. -/
def octLoop (total : Nat) :
    List (Nat × Nat) → Nat → Nat → List Nat → List Nat
  | [], _t, _q, oct => oct
  | (price, used) :: rest, t, q, oct =>
    let s := octAdvance total t price used 16 q oct
    if s.1 > 7 then s.2 else octLoop total rest t s.1 s.2

/-- The last key of the ordered distribution (dist.rbegin()->first). -/
def lastPrice : List (Nat × Nat) → Nat
  | [] => 0
  | [(p, _)] => p
  | _ :: e :: rest => lastPrice (e :: rest)

/-- The octile phase of BasicGasPricer::update: from the sampled window's
transactions and the previous contents of m_octiles, the new m_octiles.
When the total is zero the array is untouched. -/
def basicGasPricerOctiles (txs : List (Nat × Nat)) (oct0 : List Nat) :
    List Nat :=
  let s := gasDist txs
  if s.2 > 0 then
    match s.1 with
    | [] => oct0
    | (p0, u0) :: rest =>
      (octLoop s.2 ((p0, u0) :: rest) 0 1 (oct0.set 0 p0)).set 8
        (lastPrice ((p0, u0) :: rest))
  else oct0

/-- Cumulative gas used at or below a price in a distribution. -/
def cumulAt (dist : List (Nat × Nat)) (price : Nat) : Nat :=
  ((dist.filter (fun e => e.1 ≤ price)).map (fun e => e.2)).sum

/-- Modelled from the spec: octile[k] is the smallest observed price whose
cumulative weighted gas usage reaches k·total/8. -/
def specOctile (dist : List (Nat × Nat)) (total k : Nat) : Option Nat :=
  (dist.map (fun e => e.1)).find? (fun p => k * total / 8 ≤ cumulAt dist p)

/-! ## Reorg phase of the work loop: TxPool resurrection and dropping -/

/-- TransactionQueue::import, modelled from the spec: pushes a raw
transaction into the pool; transactions are identified by hash, so an
already-present transaction is kept once. -/
def tqImport (pool : List Nat) (t : Nat) : List Nat :=
  if t ∈ pool then pool else pool ++ [t]

/-- TransactionQueue::drop, modelled from the spec: removes the transaction
with the given hash from the pool. -/
def tqDrop (pool : List Nat) (t : Nat) : List Nat :=
  pool.filter (fun x => x ≠ t)

/-- The first reorg loop of Client::doWork: for every dead block, re-import
each of its transactions into the queue.  `chain` maps a block hash to the
hashes of the transactions the chain store holds for it. -/
def importDeadTxs (chain : Nat → List Nat) (pool : List Nat)
    (dead : List Nat) : List Nat :=
  dead.foldl (fun p h => (chain h).foldl tqImport p) pool

/-- The second reorg loop of Client::doWork: for every fresh block, drop
each of its transaction hashes from the queue. -/
def dropFreshTxs (chain : Nat → List Nat) (pool : List Nat)
    (fresh : List Nat) : List Nat :=
  fresh.foldl (fun p h => (chain h).foldl tqDrop p) pool

/-- The TxPool after the chain-sync phase of one work-loop pass whose sync
reported the reorg (fresh, dead): dead-block transactions are re-imported
first, then every fresh-block transaction hash is dropped. -/
def reorgTxPool (chain : Nat → List Nat) (pool : List Nat)
    (fresh dead : List Nat) : List Nat :=
  dropFreshTxs chain (importDeadTxs chain pool dead) fresh

lemma mem_tqImport (pool : List Nat) (t x : Nat) :
    x ∈ tqImport pool t ↔ x ∈ pool ∨ x = t := by
  unfold tqImport
  by_cases h : t ∈ pool
  · simp only [if_pos h]
    constructor
    · exact Or.inl
    · rintro (hx | rfl)
      · exact hx
      · exact h
  · simp [if_neg h]

lemma mem_tqDrop (pool : List Nat) (t x : Nat) :
    x ∈ tqDrop pool t ↔ x ∈ pool ∧ x ≠ t := by
  simp [tqDrop]

lemma mem_foldl_tqImport (ts : List Nat) :
    ∀ (pool : List Nat) (x : Nat),
      x ∈ ts.foldl tqImport pool ↔ x ∈ pool ∨ x ∈ ts := by
  induction ts with
  | nil => simp
  | cons t rest ih =>
    intro pool x
    simp only [List.foldl_cons, ih, mem_tqImport, List.mem_cons]
    tauto

lemma mem_foldl_tqDrop (ts : List Nat) :
    ∀ (pool : List Nat) (x : Nat),
      x ∈ ts.foldl tqDrop pool ↔ x ∈ pool ∧ x ∉ ts := by
  induction ts with
  | nil => simp
  | cons t rest ih =>
    intro pool x
    simp only [List.foldl_cons, ih, mem_tqDrop, List.mem_cons]
    tauto

lemma mem_importDeadTxs (chain : Nat → List Nat) (dead : List Nat) :
    ∀ (pool : List Nat) (x : Nat),
      x ∈ importDeadTxs chain pool dead ↔
        x ∈ pool ∨ ∃ h ∈ dead, x ∈ chain h := by
  induction dead with
  | nil => simp [importDeadTxs]
  | cons b rest ih =>
    intro pool x
    simp only [importDeadTxs, List.foldl_cons] at ih ⊢
    rw [ih, mem_foldl_tqImport]
    simp only [List.mem_cons]
    constructor
    · rintro ((hp | hb) | ⟨h, hh, hx⟩)
      · exact Or.inl hp
      · exact Or.inr ⟨b, Or.inl rfl, hb⟩
      · exact Or.inr ⟨h, Or.inr hh, hx⟩
    · rintro (hp | ⟨h, (rfl | hh), hx⟩)
      · exact Or.inl (Or.inl hp)
      · exact Or.inl (Or.inr hx)
      · exact Or.inr ⟨h, hh, hx⟩

lemma mem_dropFreshTxs (chain : Nat → List Nat) (fresh : List Nat) :
    ∀ (pool : List Nat) (x : Nat),
      x ∈ dropFreshTxs chain pool fresh ↔
        x ∈ pool ∧ ∀ h ∈ fresh, x ∉ chain h := by
  induction fresh with
  | nil => simp [dropFreshTxs]
  | cons b rest ih =>
    intro pool x
    simp only [dropFreshTxs, List.foldl_cons] at ih ⊢
    rw [ih, mem_foldl_tqDrop]
    constructor
    · rintro ⟨⟨hp, hb⟩, hrest⟩
      refine ⟨hp, ?_⟩
      intro h hh
      rcases List.mem_cons.mp hh with rfl | hh
      · exact hb
      · exact hrest h hh
    · rintro ⟨hp, hall⟩
      exact ⟨⟨hp, hall b (List.mem_cons_self b rest)⟩,
        fun h hh => hall h (List.mem_cons_of_mem b hh)⟩

/-- The block-to-transactions map of the counterexample chain store: block 1
(the dead block) and block 2 (the fresh block) both contain the transaction
with hash 42, as happens whenever a reorg replaces a block by a competing
block carrying the same transaction. -/
def overlapChain : Nat → List Nat :=
  fun h => if h = 1 ∨ h = 2 then [42] else []

/-! ## Pending-log filter notification -/

/-- RelativeBlock: the reference point a filter range is checked against. -/
inductive RelativeBlock where
  | Latest
  | Pending
deriving DecidableEq, Repr

/-- LocalisedLogEntry: a log entry together with the block number and the
hash of the transaction that produced it.  Log entries themselves are
opaque here and carried as Nat. -/
structure LocalisedLogEntry where
  entry : Nat
  blockNumber : Nat
  transactionHash : Nat
deriving DecidableEq, Repr

/-- LogFilter, modelled from the spec: it answers envelops(relative, number)
and matchLogs(receipt) (the source's matches), the logs the filter selects from a receipt.
Receipts are carried as Nat. -/
structure LogFilter where
  envelops : RelativeBlock → Nat → Bool
  matchLogs : Nat → List Nat

/-- InstalledFilter: a filter plus its accumulated changes. -/
structure InstalledFilter where
  filter : LogFilter
  changes : List LocalisedLogEntry

/-- The update Client::appendFromNewPending applies to one installed filter
for a newly applied pending transaction: when the filter envelops the
pending block (head number + 1), each matching log of the receipt is
appended as a localised entry carrying block number head number + 1 and the
transaction's hash. -/
def notifyPendingFilter (bcNumber receipt txHash : Nat)
    (f : InstalledFilter) : InstalledFilter :=
  if f.filter.envelops RelativeBlock.Pending (bcNumber + 1) then
    let fresh := (f.filter.matchLogs receipt).map
      (fun l => LocalisedLogEntry.mk l (bcNumber + 1) txHash)
    { f with changes := f.changes ++ fresh }
  else f

/-- Client::appendFromNewPending over the whole installed-filter table. -/
def appendFromNewPending (bcNumber receipt txHash : Nat)
    (filters : List (Nat × InstalledFilter)) :
    List (Nat × InstalledFilter) :=
  filters.map (fun idf => (idf.1, notifyPendingFilter bcNumber receipt txHash idf.2))

/-- The filter ids appendFromNewPending inserts into io_changed: those whose
filter envelops the pending block and matches the receipt non-trivially. -/
def pendingChangedIds (bcNumber receipt : Nat)
    (filters : List (Nat × InstalledFilter)) : List Nat :=
  (filters.filter (fun idf =>
    idf.2.filter.envelops RelativeBlock.Pending (bcNumber + 1) &&
      !(idf.2.filter.matchLogs receipt).isEmpty)).map (fun idf => idf.1)

/-- A concrete filter for evaluating the pending-notification path: it
envelops every block and selects the single log 7 from every receipt. -/
def cfilt : LogFilter where
  envelops := fun _ _ => true
  matchLogs := fun _ => [7]

/-- The dispatch loop of Client::doWork at the postSTATE <== TQ phase: for
each index i below the number of newly returned receipts, it runs
appendFromNewPending with receipt newPendingReceipts[i] and transaction
hash m_postMine.pending()[i].sha3() — the i-th entry of the FULL pending
list (transactions are carried as their hashes). -/
def dispatchNewPending (bcNumber : Nat) (pending newReceipts : List Nat)
    (filters : List (Nat × InstalledFilter)) :
    List (Nat × InstalledFilter) :=
  (List.range newReceipts.length).foldl
    (fun fs i =>
      appendFromNewPending bcNumber (newReceipts.getD i 0) (pending.getD i 0) fs)
    filters

/-- The whole receipts-dispatch of one pass.  Modelled from the spec:
State::sync (not under src/) applies the eligible queue transactions and
returns a receipt vector position-aligned with the newly applied
transaction list, so with `applied` the new (transaction hash, receipt)
pairs, the pending list after the call is oldPending ++ the new hashes and
newPendingReceipts holds exactly the new receipts. -/
def pendingPhase (bcNumber : Nat) (oldPending : List Nat)
    (applied : List (Nat × Nat)) (filters : List (Nat × InstalledFilter)) :
    List (Nat × InstalledFilter) :=
  dispatchNewPending bcNumber (oldPending ++ applied.map (fun a => a.1))
    (applied.map (fun a => a.2)) filters

/-! ## Client::call -/

/-- An account-balance state standing for the state trie; its root is the
association list itself. -/
structure EthState where
  balances : List (Nat × Nat)
deriving DecidableEq, Repr

/-- Association-list update backing State::addBalance. -/
def updBal : List (Nat × Nat) → Nat → Nat → List (Nat × Nat)
  | [], a, v => [(a, v)]
  | (b, x) :: rest, a, v =>
    if b = a then (b, x + v) :: rest else (b, x) :: updBal rest a v

/-- State::addBalance. -/
def addBalance (s : EthState) (addr amount : Nat) : EthState :=
  ⟨updBal s.balances addr amount⟩

/-- The state root hash, modelled as the underlying state itself (root
computation is injective on the states the orchestrator compares). -/
def stateHash (s : EthState) : List (Nat × Nat) :=
  s.balances

/-- ExecutionResult, with only its observable payload. -/
structure ExecutionResult where
  output : List Nat
deriving DecidableEq, Repr

/-- The default-constructed ExecutionResult `ret` that Client::call returns
when the simulation fails. -/
def emptyExecutionResult : ExecutionResult :=
  ⟨[]⟩

/-- The orchestrator state slice Client::call can reach: PreMineState and
PostMineState. -/
structure ClientState where
  preMine : EthState
  postMine : EthState
deriving DecidableEq, Repr

/-- Client::call: copies PostMineState into the transient `temp`, credits
the sender value + gasPrice·gas there, runs the Executive on `temp`
(the Executive is an external collaborator, modelled as a fallible function
of the destination, calldata and state), and swallows any failure into the
default-constructed empty result.  Only `temp` is ever written; the client
state is returned untouched. -/
def clientCall (c : ClientState)
    (exec : Nat → List Nat → EthState → Option ExecutionResult)
    (dest : Nat) (data : List Nat) (gas value gasPrice sender : Nat) :
    ExecutionResult × ClientState :=
  let temp := addBalance c.postMine sender (value + gasPrice * gas)
  let ret := match exec dest data temp with
    | some r => r
    | none => emptyExecutionResult
  (ret, c)

/-! ## Watch garbage collection -/

/-- The GC-relevant state of one watch: lastPoll is `none` while the watch
has never been polled (the source's time_point::max sentinel, modelled from
the spec), and `some t` once a poll happened at time t (in seconds). -/
structure ClientWatch where
  lastPoll : Option Nat
deriving DecidableEq, Repr

/-- The garbage-collection tick at the end of Client::doWork: only when
more than 5 seconds passed since the last collection does it run, and then
it uninstalls exactly the watches polled at least once and more than
20 seconds ago, finally bumping the last-collection time to now. -/
def watchGC (now lastGC : Nat) (watches : List (Nat × ClientWatch)) :
    Nat × List (Nat × ClientWatch) :=
  if lastGC + 5 < now then
    (now, watches.filter (fun w =>
      match w.2.lastPoll with
      | none => true
      | some t => !(decide (t + 20 < now))))
  else (lastGC, watches)

/-! ## Client::hashrate -/

/-- The hashes and ms counters of one local miner's MineProgress. -/
structure MineProgress where
  hashes : Nat
  ms : Nat
deriving DecidableEq, Repr

/-- One `ret += m.miningProgress().hashes / m.miningProgress().ms` step of
Client::hashrate on the uint64 accumulator, guarded: the source performs
the division unconditionally, so a miner with ms = 0 divides by zero and
the step yields `none`. -/
def hashrateStep (acc : Option Nat) (m : MineProgress) : Option Nat :=
  match acc with
  | none => none
  | some r => if m.ms = 0 then none else some ((r + m.hashes / m.ms) % 2 ^ 64)

/-- Client::hashrate: folds the guarded accumulation over the local miners
and divides the accumulator by 1000. -/
def hashrate (miners : List MineProgress) : Option Nat :=
  match miners.foldl hashrateStep (some 0) with
  | none => none
  | some r => some (r / 1000)

/-- A watch is kept by the GC pass iff it was never polled or its last poll
is at most 20 seconds old. -/
def keepWatch (now : Nat) (w : ClientWatch) : Bool :=
  match w.lastPoll with
  | none => true
  | some t => !(decide (t + 20 < now))

lemma keepWatch_iff (now : Nat) (w : ClientWatch) :
    keepWatch now w = true ↔ ¬ ∃ t, w.lastPoll = some t ∧ t + 20 < now := by
  unfold keepWatch
  cases h : w.lastPoll with
  | none => simp [h]
  | some t => simp [h]

lemma hashrate_foldl (l : List MineProgress) :
    ∀ a : Nat, a < 2 ^ 64 → (∀ m ∈ l, m.ms ≠ 0) →
      l.foldl hashrateStep (some a) =
        some ((a + (l.map (fun m => m.hashes / m.ms)).sum) % 2 ^ 64) := by
  induction l with
  | nil =>
    intro a ha _
    simp
    omega
  | cons m rest ih =>
    intro a ha hms
    have hm : m.ms ≠ 0 := hms m (List.mem_cons_self m rest)
    have hstep : hashrateStep (some a) m =
        some ((a + m.hashes / m.ms) % 2 ^ 64) := by
      simp [hashrateStep, hm]
    simp only [List.foldl_cons, hstep]
    rw [ih _ (Nat.mod_lt _ (by positivity))
      (fun x hx => hms x (List.mem_cons_of_mem m hx))]
    rw [Nat.mod_add_mod, List.map_cons, List.sum_cons, Nat.add_assoc]

lemma hashrate_foldl_none (l : List MineProgress) :
    l.foldl hashrateStep none = none := by
  induction l with
  | nil => rfl
  | cons m rest ih =>
    simp only [List.foldl_cons]
    exact ih

lemma hashrate_foldl_zero (l : List MineProgress) :
    ∀ a : Nat, (∃ m ∈ l, m.ms = 0) → l.foldl hashrateStep (some a) = none := by
  induction l with
  | nil =>
    intro a h
    simp at h
  | cons m rest ih =>
    intro a h
    simp only [List.foldl_cons]
    by_cases hm : m.ms = 0
    · have hstep : hashrateStep (some a) m = none := by
        simp [hashrateStep, hm]
      rw [hstep, hashrate_foldl_none]
    · have hstep : hashrateStep (some a) m =
          some ((a + m.hashes / m.ms) % 2 ^ 64) := by
        simp [hashrateStep, hm]
      rw [hstep]
      apply ih
      rcases h with ⟨x, hx, hxz⟩
      rcases List.mem_cons.mp hx with rfl | hx2
      · exact absurd hxz hm
      · exact ⟨x, hx2, hxz⟩

/-! ## The claims -/

/-- C2: for every status record [P, m, D] read from the status file and
compiled-in constants (P', m', D'), the action is Trust iff the record
parses to exactly the constants, Verify iff it parses with P = P', D = D'
and m ≠ m', and Kill in every other case, including when the file is absent
or does not parse to a three-field record. -/
theorem versionChecker_action_cases (k : VersionConstants)
    (file : Option (List Nat)) :
    (versionCheckerAction k file = WithExisting.Trust ↔
      parseStatus file =
        some (k.protocolVersion, k.minorProtocolVersion, k.databaseVersion)) ∧
    (versionCheckerAction k file = WithExisting.Verify ↔
      ∃ m, m ≠ k.minorProtocolVersion ∧
        parseStatus file = some (k.protocolVersion, m, k.databaseVersion)) ∧
    (versionCheckerAction k file = WithExisting.Kill ↔
      parseStatus file = none ∨
        ∃ p m d, parseStatus file = some (p, m, d) ∧
          (p ≠ k.protocolVersion ∨ d ≠ k.databaseVersion)) :=
  ⟨action_trust_iff k file, action_verify_iff k file, action_kill_iff k file⟩

/-- C8 counterexample: with compiled constants (60, 0, 5) and a status file
whose record is [60, 0, 5, 7], the check yields Trust, setOk therefore does
not rewrite, and after startup the file is not exactly the three compiled-in
constants. -/
theorem startup_trust_no_rewrite_cex :
    versionCheckerAction ⟨60, 0, 5⟩ (some [60, 0, 5, 7]) =
      WithExisting.Trust ∧
    startupStatusFile ⟨60, 0, 5⟩ (some [60, 0, 5, 7]) ≠ some [60, 0, 5] := by
  decide

/-- C8 (amended): after startup the status file's first three fields always
parse to exactly the compiled-in constants; the file is rewritten to the
bare constant record precisely when the action is not Trust, and left
unchanged under Trust (where its leading fields already equal the
constants). -/
theorem startup_status_fields (k : VersionConstants)
    (file : Option (List Nat)) :
    parseStatus (startupStatusFile k file) =
      some (k.protocolVersion, k.minorProtocolVersion, k.databaseVersion) ∧
    startupStatusFile k file =
      (if versionCheckerAction k file = WithExisting.Trust then file
       else some [k.protocolVersion, k.minorProtocolVersion,
         k.databaseVersion]) := by
  constructor
  · unfold startupStatusFile setOk
    by_cases h : versionCheckerAction k file = WithExisting.Trust
    · rw [if_pos h]
      exact (action_trust_iff k file).mp h
    · rw [if_neg h]
      rfl
  · unfold startupStatusFile setOk
    by_cases h : versionCheckerAction k file = WithExisting.Trust
    · rw [if_pos h]
    · rw [if_neg h]

/-- C1 counterexample: in a reorg where dead block 1 and fresh block 2 both
contain the transaction with hash 42, the pass first re-imports 42 and then
drops it, so the dead block's transaction is NOT in the TxPool afterwards,
although the claim requires every dead-block transaction to be. -/
theorem reorg_resurrection_cex :
    (1 : Nat) ∈ [1] ∧ (42 : Nat) ∈ overlapChain 1 ∧
    (42 : Nat) ∉ reorgTxPool overlapChain [] [2] [1] := by
  decide

/-- C1 (amended): after the chain-sync phase of a pass whose sync reported
the reorg (fresh, dead), the TxPool holds exactly the transactions that were
pooled before or sit in some dead block, minus every transaction whose hash
occurs in a fresh block; in particular a dead-block transaction is
resurrected iff no fresh block also carries it, and every fresh-block
transaction hash is absent. -/
theorem reorgTxPool_mem (chain : Nat → List Nat) (pool : List Nat)
    (fresh dead : List Nat) (t : Nat) :
    t ∈ reorgTxPool chain pool fresh dead ↔
      (t ∈ pool ∨ ∃ h ∈ dead, t ∈ chain h) ∧ ∀ h ∈ fresh, t ∉ chain h := by
  unfold reorgTxPool
  rw [mem_dropFreshTxs, mem_importDeadTxs]

/-- Per-call behaviour of Client::appendFromNewPending (lines 294-310):
every installed filter that envelops the pending block (head number + 1)
and matches the passed receipt accumulates exactly one localised entry per
matching log, each carrying block number head number + 1 and the passed
transaction hash, and its id is collected as changed.  The function itself
is faithful to this; the hash its caller passes is a separate matter, see
the dispatch theorem below. -/
theorem appendFromNewPending_spec (bcNumber receipt txHash : Nat)
    (filters : List (Nat × InstalledFilter)) (fid : Nat)
    (f : InstalledFilter)
    (hmem : (fid, f) ∈ filters)
    (henv : f.filter.envelops RelativeBlock.Pending (bcNumber + 1) = true)
    (hm : f.filter.matchLogs receipt ≠ []) :
    (fid, { f with changes := f.changes ++
        (f.filter.matchLogs receipt).map (fun l => LocalisedLogEntry.mk l (bcNumber + 1) txHash) }) ∈
      appendFromNewPending bcNumber receipt txHash filters ∧
    fid ∈ pendingChangedIds bcNumber receipt filters := by
  constructor
  · unfold appendFromNewPending
    refine List.mem_map.mpr ⟨(fid, f), hmem, ?_⟩
    simp [notifyPendingFilter, henv]
  · unfold pendingChangedIds
    refine List.mem_map.mpr ⟨(fid, f), List.mem_filter.mpr ⟨hmem, ?_⟩, rfl⟩
    simp [henv, hm]

/-- Concrete instance of the per-call lemma: one filter (id 3) enveloping
everything and matching log 7 on every receipt, at head number 5 and
transaction hash 9: it accumulates the single entry (log 7, block 6, tx 9)
and id 3 is collected. -/
theorem appendFromNewPending_spec_witness :
    (3, InstalledFilter.mk cfilt [LocalisedLogEntry.mk 7 6 9]) ∈
      appendFromNewPending 5 0 9 [(3, InstalledFilter.mk cfilt [])] ∧
    3 ∈ pendingChangedIds 5 0 [(3, InstalledFilter.mk cfilt [])] :=
  appendFromNewPending_spec 5 0 9 [(3, InstalledFilter.mk cfilt [])] 3
    (InstalledFilter.mk cfilt []) (List.mem_singleton.mpr rfl) rfl
    (by decide)

/-- C4: with one transaction (hash 10) already pending from an earlier
pass (head unchanged) and this pass newly applying the transaction with
hash 20 and receipt 5, the dispatch loop pairs the single new receipt with
pending()[0].sha3() = 10: the filter accumulates the entry
(log 7, block 1, tx 10), carrying the hash of the OLD pending transaction
instead of 20, the hash of the transaction that produced the receipt it
localises. -/
theorem dispatchNewPending_wrong_hash :
    pendingPhase 0 [10] [(20, 5)] [(3, InstalledFilter.mk cfilt [])] =
      [(3, InstalledFilter.mk cfilt [LocalisedLogEntry.mk 7 1 10])] ∧
    ∀ e ∈ [LocalisedLogEntry.mk 7 1 10], e.transactionHash ≠ 20 :=
  ⟨rfl, by decide⟩

/-- C3: call simulates against a transient copy of PostMineState in which
the sender has been credited value + gasPrice·gas, and the client state —
PreMineState and PostMineState, hence their state hashes — is returned
untouched. -/
theorem clientCall_frame (c : ClientState)
    (exec : Nat → List Nat → EthState → Option ExecutionResult)
    (dest : Nat) (data : List Nat) (gas value gasPrice sender : Nat) :
    (clientCall c exec dest data gas value gasPrice sender).2 = c ∧
    stateHash (clientCall c exec dest data gas value gasPrice sender).2.preMine
      = stateHash c.preMine ∧
    stateHash (clientCall c exec dest data gas value gasPrice sender).2.postMine
      = stateHash c.postMine ∧
    (clientCall c exec dest data gas value gasPrice sender).1 =
      (match exec dest data
          (addBalance c.postMine sender (value + gasPrice * gas)) with
        | some r => r
        | none => emptyExecutionResult) :=
  ⟨rfl, rfl, rfl, rfl⟩

/-- C7: when the simulation fails (the Executive yields no result), call
returns the default-constructed empty ExecutionResult; being a total
function of its inputs, it lets no failure escape. -/
theorem clientCall_failure (c : ClientState)
    (exec : Nat → List Nat → EthState → Option ExecutionResult)
    (dest : Nat) (data : List Nat) (gas value gasPrice sender : Nat)
    (h : exec dest data
      (addBalance c.postMine sender (value + gasPrice * gas)) = none) :
    (clientCall c exec dest data gas value gasPrice sender).1 =
      emptyExecutionResult := by
  simp [clientCall, h]

/-- C7 witness: a failing simulation on a concrete state returns the empty
result. -/
theorem clientCall_failure_witness :
    (clientCall (ClientState.mk (EthState.mk []) (EthState.mk [(1, 5)]))
      (fun _ _ _ => none) 2 [3] 4 5 6 7).1 = emptyExecutionResult :=
  clientCall_failure (ClientState.mk (EthState.mk []) (EthState.mk [(1, 5)]))
    (fun _ _ _ => none) 2 [3] 4 5 6 7 rfl

/-- C5: at the window [(gasPrice 1, gasUsed 4), (gasPrice 2, gasUsed 4)]
(total 8) with m_octiles initially all zero, update computes
[1, 1, 1, 1, 0, 0, 0, 0, 2]: the octiles are not ascending
(octile[3] = 1 > octile[4] = 0), and octile[4] is 0 although the smallest
observed price whose cumulative weight reaches 4·total/8 is 1 — the loop's
cumulative counter t is initialised and tested but never incremented by
i.second, so octiles 4..7 are never written for this window. -/
theorem basicGasPricer_octiles_bug :
    basicGasPricerOctiles [(1, 4), (2, 4)] (List.replicate 9 0) =
      [1, 1, 1, 1, 0, 0, 0, 0, 2] ∧
    ¬ List.Sorted (· ≤ ·)
      (basicGasPricerOctiles [(1, 4), (2, 4)] (List.replicate 9 0)) ∧
    specOctile (gasDist [(1, 4), (2, 4)]).1 (gasDist [(1, 4), (2, 4)]).2 4 =
      some 1 ∧
    (basicGasPricerOctiles [(1, 4), (2, 4)] (List.replicate 9 0)).get? 4 =
      some 0 := by
  refine ⟨rfl, ?_, rfl, rfl⟩
  decide

/-- C6: a watch survives the GC tick iff it was already installed and, in
case the tick actually collects (more than 5 seconds since the last
collection), its last poll is not set-and-more-than-20-seconds-old; the
last-collection clock advances exactly when the tick collects.  So no watch
is removed within 20 seconds of its last poll, a never-polled watch is never
removed, and between ticks less than 5 seconds apart nothing is removed. -/
theorem watchGC_spec (now lastGC : Nat) (watches : List (Nat × ClientWatch))
    (wid : Nat) (w : ClientWatch) :
    ((wid, w) ∈ (watchGC now lastGC watches).2 ↔
      (wid, w) ∈ watches ∧
        (lastGC + 5 < now → ¬ ∃ t, w.lastPoll = some t ∧ t + 20 < now)) ∧
    (watchGC now lastGC watches).1 =
      (if lastGC + 5 < now then now else lastGC) := by
  constructor
  · unfold watchGC
    by_cases h : lastGC + 5 < now
    · simp only [if_pos h, List.mem_filter]
      constructor
      · rintro ⟨hw, hk⟩
        exact ⟨hw, fun _ => (keepWatch_iff now w).mp hk⟩
      · rintro ⟨hw, hk⟩
        exact ⟨hw, (keepWatch_iff now w).mpr (hk h)⟩
    · simp only [if_neg h]
      constructor
      · intro hw
        exact ⟨hw, fun hc => absurd hc h⟩
      · rintro ⟨hw, _⟩
        exact hw
  · unfold watchGC
    by_cases h : lastGC + 5 < now
    · simp [h]
    · simp [h]

/-- C9: when every local miner has a non-zero ms counter and the uint64
accumulator does not wrap, hashrate returns the sum of the per-miner
integer quotients hashes/ms — each miner's hashes divided by that miner's
own ms before summing — divided by 1000. -/
theorem hashrate_sum (miners : List MineProgress)
    (hms : ∀ m ∈ miners, m.ms ≠ 0)
    (hov : (miners.map (fun m => m.hashes / m.ms)).sum < 2 ^ 64) :
    hashrate miners =
      some ((miners.map (fun m => m.hashes / m.ms)).sum / 1000) := by
  unfold hashrate
  rw [hashrate_foldl miners 0 (by positivity) hms, Nat.zero_add,
    Nat.mod_eq_of_lt hov]

/-- C9 witness: miners (5000 hashes, 2 ms) and (3000 hashes, 3 ms) give
(2500 + 1000) / 1000 = 3. -/
theorem hashrate_sum_witness :
    hashrate [MineProgress.mk 5000 2, MineProgress.mk 3000 3] = some 3 :=
  hashrate_sum [MineProgress.mk 5000 2, MineProgress.mk 3000 3]
    (by decide) (by decide)

/-- C10: the division hashes/ms is unguarded in the source, so the error
branch is reachable: whenever some local miner's ms counter is 0 — as for a
freshly set-up miner — the guarded embedding of hashrate yields no value. -/
theorem hashrate_zero_ms (miners : List MineProgress)
    (h : ∃ m ∈ miners, m.ms = 0) :
    hashrate miners = none := by
  unfold hashrate
  rw [hashrate_foldl_zero miners 0 h]

/-- C10 witness: one miner with 5 hashes and a 0 ms counter makes the
division by zero reachable. -/
theorem hashrate_zero_ms_witness :
    hashrate [MineProgress.mk 5 0] = none :=
  hashrate_zero_ms [MineProgress.mk 5 0] (by decide)

end EthClient
